import Mathlib

/-!
Shallow embedding of the SpellCast word-search core (`src/search.py`).

The repository's `search.py` drives a trie-pruned depth-first search over a
letter board.  The collaborator classes (`TrieNode`, `Board`, `Cell`, `Word`,
`WordList`) live in files that are not part of the provided sources, so their
data model is modelled from the specification (spec.md §3); the search logic
itself (`WordSearch.__init__` word loading, `_build_trie`, `find_all_words`,
`_dfs`) is translated line by line from `search.py`.

Python's in-place mutation of the board, the path accumulator and the result
list is rendered as explicit state passing: `_dfs` receives the board, the
current word and the found-word list and returns their final values.  The
unbounded recursion of `_dfs` is rendered with an explicit fuel parameter
(`none` = fuel exhausted or a raised exception); `find_all_words` supplies
`ROWS * COLS` fuel, which is proved sufficient for well-formed boards.
-/

namespace SpellCast

/-- Modelled from the spec: the `Cell` class (file `src/cell.py`, absent from
the sources) — "an immutable value — a coordinate (x, y) within grid bounds
and a letter value" (spec §3). -/
structure Cell where
  x : Int
  y : Int
  value : Char
deriving DecidableEq, Repr

/-- Modelled from the spec: the `TrieNode` class (file `src/trie.py`, absent
from the sources) — "mapping from single letter to child TrieNode (keys
unique); boolean flag marking a complete dictionary word" (spec §3).  The
Python dict of children is rendered as an association list. -/
inductive TrieNode where
  | mk (children : List (Char × TrieNode)) (is_end_of_word : Bool)
deriving Repr

/-- The children dictionary of a trie node. -/
def TrieNode.children : TrieNode → List (Char × TrieNode)
  | ⟨ch, _⟩ => ch

/-- The end-of-word flag of a trie node. -/
def TrieNode.is_end_of_word : TrieNode → Bool
  | ⟨_, e⟩ => e

@[simp]
theorem TrieNode.children_mk (ch : List (Char × TrieNode)) (e : Bool) :
    TrieNode.children ⟨ch, e⟩ = ch := rfl

@[simp]
theorem TrieNode.is_end_of_word_mk (ch : List (Char × TrieNode)) (e : Bool) :
    TrieNode.is_end_of_word ⟨ch, e⟩ = e := rfl

/-- Lookup in the children association list: Python `node.children.get(c)` /
`c in node.children` / `node.children[c]`. -/
def childLookup : List (Char × TrieNode) → Char → Option TrieNode
  | [], _ => none
  | (c', t) :: rest, c => if c' = c then some t else childLookup rest c

/-- Replace the child stored under an existing key: Python dict assignment
`node.children[c] = t` when `c` is already a key. -/
def childReplace : List (Char × TrieNode) → Char → TrieNode → List (Char × TrieNode)
  | [], _, _ => []
  | (c', t) :: rest, c, nt => if c' = c then (c, nt) :: rest else (c', t) :: childReplace rest c nt

/-- One word's insertion loop from `WordSearch._build_trie`:

    node = root
    for letter in word:
        if letter not in node.children:
            node.children[letter] = TrieNode()
        node = node.children[letter]
    node.is_end_of_word = True

rendered as a recursive functional update. -/
def insertWord : TrieNode → List Char → TrieNode
  | t, [] => ⟨t.children, true⟩
  | t, c :: cs =>
    match childLookup t.children c with
    | some t0 => ⟨childReplace t.children c (insertWord t0 cs), t.is_end_of_word⟩
    | none => ⟨t.children ++ [(c, insertWord ⟨[], false⟩ cs)], t.is_end_of_word⟩

/-- `WordSearch._build_trie`: fold `insertWord` over the word set (modelled as
a list, since Python set iteration order is unspecified), starting from the
fresh root `TrieNode()`. -/
def buildTrie (ws : List String) : TrieNode :=
  ws.foldl (fun t w => insertWord t w.toList) ⟨[], false⟩

/-- Walking a letter sequence down the trie from a node (the reference lookup
used to specify trie correctness). -/
def walkTrie : TrieNode → List Char → Option TrieNode
  | t, [] => some t
  | t, c :: cs =>
    match childLookup t.children c with
    | some t' => walkTrie t' cs
    | none => none

/-- Python `str.strip()`: remove leading and trailing whitespace. -/
def strip (s : String) : String :=
  String.mk (((s.data.dropWhile Char.isWhitespace).reverse.dropWhile Char.isWhitespace).reverse)

/-- The word-loading loop of `WordSearch.__init__`:

    for line in file.readlines():
        self.words.add(line.strip())

Every stripped line is added unconditionally; the Python `set` is rendered as
a duplicate-free list built by conditional append. -/
def loadWords (lines : List String) : List String :=
  lines.foldl (fun acc l => if strip l ∈ acc then acc else acc ++ [strip l]) []

/-- Modelled from the spec: the `Board` class (file `src/board.py`, absent
from the sources) — "a fixed ROWS×COLS matrix of optional Cell values"
supporting O(1) get/set by coordinate (spec §3, §6).  The matrix is rendered
as a total function on integer coordinates; a well-formed board (below) is
populated only inside its bounds. -/
structure Board where
  ROWS : Nat
  COLS : Nat
  cells : Int → Int → Option Cell

/-- Modelled from the spec: `Board.get_cell(x, y)` — "getCell(x, y) ->
optional letter-bearing cell" (spec §6). -/
def Board.get_cell (b : Board) (x y : Int) : Option Cell :=
  b.cells x y

/-- Modelled from the spec: `Board.set_cell(x, y, v)` — "setCell(x, y,
optional cell) for the remove/restore protocol" (spec §6). -/
def Board.set_cell (b : Board) (x y : Int) (v : Option Cell) : Board :=
  ⟨b.ROWS, b.COLS, fun x' y' => if x' = x ∧ y' = y then v else b.cells x' y'⟩

/-- Modelled from the spec: the `Word` class (file `src/word.py`, absent from
the sources) — the spec's PathAccumulator, "an ordered sequence of Cells
representing letters chosen so far, in traversal order" (spec §3). -/
structure Word where
  cells : List Cell
deriving DecidableEq, Repr

/-- Modelled from the spec: `Word(cell)` — a path initialized with a single
starting cell (spec §4.2 step 1: "initialize a path containing only that
cell"). -/
def Word.init (c : Cell) : Word :=
  ⟨[c]⟩

/-- Modelled from the spec: `Word.add` — PathAccumulator `push(cell)`
"appends" (spec §4.3). -/
def Word.add (w : Word) (c : Cell) : Word :=
  ⟨w.cells ++ [c]⟩

/-- Modelled from the spec: `Word.pop` — PathAccumulator `pop()` "removes the
most recently appended cell" (spec §4.3). -/
def Word.pop (w : Word) : Word :=
  ⟨w.cells.dropLast⟩

/-- Modelled from the spec: `str(current_word)` — PathAccumulator `render()`
"produces the string of letters in order" (spec §4.3). -/
def Word.render (w : Word) : String :=
  String.mk (w.cells.map (fun c => c.value))

/-- Modelled from the spec: `Word._get_path` — PathAccumulator
`coordinates()` "produces the ordered list of (x,y) pairs" (spec §4.3). -/
def Word.getPath (w : Word) : List (Int × Int) :=
  w.cells.map (fun c => (c.x, c.y))

/-- Modelled from the spec: the `WordList` class (file `src/word.py`, absent
from the sources) — the spec's ResultSet, "a set of FoundWord keyed by word
string (duplicate words reached via different paths are recorded at most once
— first-found path wins)" (spec §3). -/
structure WordList where
  entries : List (String × List (Int × Int))
deriving DecidableEq, Repr

/-- Modelled from the spec: `WordList._add` — record a (word, path) pair,
de-duplicated by word string, first-found path wins (spec §3 ResultSet). -/
def WordList.addFound (f : WordList) (e : String × List (Int × Int)) : WordList :=
  if f.entries.any (fun e' => e'.1 = e.1) then f else ⟨f.entries ++ [e]⟩

/-- The 8 neighbor offsets, in the order listed in `_dfs`. -/
def directions : List (Int × Int) :=
  [(-1, 0), (-1, 1), (0, 1), (1, 1), (1, 0), (1, -1), (0, -1), (-1, -1)]

/-- The direction loop of `WordSearch._dfs`:

    for dx, dy in directions:
        nx, ny = x + dx, y + dy
        if 0 <= nx < Board.ROWS and 0 <= ny < Board.COLS:
            next_cell = board.get_cell(nx, ny)
            if next_cell is not None and next_cell.value in node.children:
                current_word.add(next_cell)
                self._dfs(board, nx, ny, current_word, node.children[next_cell.value], found_words)
                current_word.pop()  # Backtrack

with the recursive `_dfs` call abstracted as the parameter `rec` (the caller
passes `_dfs` at the next fuel level).  Note the guard compares `nx` against
`ROWS` and `ny` against `COLS`, exactly as the Python does. -/
def dfsDirs (rec : Board → Int → Int → Word → Option TrieNode → WordList →
    Option (Board × Word × WordList)) :
    List (Int × Int) → Board → Int → Int → Word → TrieNode → WordList →
    Option (Board × Word × WordList)
  | [], b, _, _, w, _, f => some (b, w, f)
  | (dx, dy) :: rest, b, x, y, w, node, f =>
    let nx := x + dx
    let ny := y + dy
    if 0 ≤ nx ∧ nx < (b.ROWS : Int) ∧ 0 ≤ ny ∧ ny < (b.COLS : Int) then
      match b.get_cell nx ny with
      | some next_cell =>
        match childLookup node.children next_cell.value with
        | some child =>
          match rec b nx ny (w.add next_cell) (some child) f with
          | none => none
          | some (b2, w2, f2) => dfsDirs rec rest b2 x y w2.pop node f2
        | none => dfsDirs rec rest b x y w node f
      | none => dfsDirs rec rest b x y w node f
    else dfsDirs rec rest b x y w node f

/-- `WordSearch._dfs`, with the board, current word and found list threaded
explicitly and a fuel bound on the recursion depth (`none` = fuel ran out):

    if node is None:
        return
    if node.is_end_of_word:
        found_words._add((str(current_word), current_word._get_path()))
    temp_cell = board.get_cell(x, y)
    board.set_cell(x, y, None)
    for dx, dy in directions: ...   # dfsDirs
    board.set_cell(x, y, temp_cell)
-/
def dfs : Nat → Board → Int → Int → Word → Option TrieNode → WordList →
    Option (Board × Word × WordList)
  | _, b, _, _, w, none, f => some (b, w, f)
  | 0, _, _, _, _, some _, _ => none
  | fuel + 1, b, x, y, w, some node, f =>
    let f1 := if node.is_end_of_word then f.addFound (w.render, w.getPath) else f
    let temp := b.get_cell x y
    let b1 := b.set_cell x y none
    match dfsDirs (dfs fuel) directions b1 x y w node f1 with
    | none => none
    | some (b2, w2, f2) => some (b2.set_cell x y temp, w2, f2)

/-- The start cells of `find_all_words`, in its iteration order:

    for y in range(Board.ROWS):
        for x in range(Board.COLS):
-/
def boardCoords (b : Board) : List (Int × Int) :=
  (List.range b.ROWS).flatMap
    (fun (y : Nat) => (List.range b.COLS).map (fun (x : Nat) => ((x : Int), (y : Int))))

/-- The start-cell loop of `find_all_words`:

    cell = board.get_cell(x, y)
    self._dfs(board, x, y, Word(cell), self.trie.children.get(cell.value), found_words)

An absent start cell makes the Python raise (`cell.value` on `None`), rendered
as `none`. -/
def findLoop (root : TrieNode) : List (Int × Int) → Board → WordList →
    Option (Board × WordList)
  | [], b, f => some (b, f)
  | (x, y) :: rest, b, f =>
    match b.get_cell x y with
    | none => none
    | some cell =>
      match dfs (b.ROWS * b.COLS) b x y (Word.init cell) (childLookup root.children cell.value) f with
      | none => none
      | some (b2, _, f2) => findLoop root rest b2 f2

/-- `WordSearch.find_all_words`: DFS from every cell in row-major order,
returning the final board (the Python mutates it in place) and the found
words.  The fuel `ROWS * COLS` reflects the spec's recursion-depth bound. -/
def find_all_words (root : TrieNode) (b : Board) : Option (Board × WordList) :=
  findLoop root (boardCoords b) b ⟨[]⟩

/-- A board is well-formed when every present cell lies inside the bounds used
by `find_all_words` (x over COLS, y over ROWS) and carries its own coordinates
(spec §3: a Cell is "a coordinate (x, y) within grid bounds and a letter
value", identity positional). -/
def wellFormed (b : Board) : Prop :=
  ∀ x y c, b.cells x y = some c →
    0 ≤ x ∧ x < (b.COLS : Int) ∧ 0 ≤ y ∧ y < (b.ROWS : Int) ∧ c.x = x ∧ c.y = y

/-- The number of present cells of a board (counted over its in-bounds
coordinates). -/
def presentCount (b : Board) : Nat :=
  ((Finset.range b.COLS ×ˢ Finset.range b.ROWS).filter
    (fun p => (b.cells (p.1 : Int) (p.2 : Int)).isSome)).card

/-! ## Basic lemmas about the modelled collaborators -/

@[simp]
theorem Board.ROWS_set_cell (b : Board) (x y : Int) (v : Option Cell) :
    (b.set_cell x y v).ROWS = b.ROWS := rfl

@[simp]
theorem Board.COLS_set_cell (b : Board) (x y : Int) (v : Option Cell) :
    (b.set_cell x y v).COLS = b.COLS := rfl

@[simp]
theorem Board.get_set_self (b : Board) (x y : Int) (v : Option Cell) :
    (b.set_cell x y v).get_cell x y = v := by
  simp [Board.get_cell, Board.set_cell]

theorem Board.get_set_of_ne (b : Board) (x y x' y' : Int) (v : Option Cell)
    (h : ¬(x' = x ∧ y' = y)) : (b.set_cell x y v).get_cell x' y' = b.get_cell x' y' := by
  simp [Board.get_cell, Board.set_cell, h]

/-- Removing a cell and putting back what was read there restores the board
exactly (the remove/restore protocol round-trips). -/
theorem Board.set_set_restore (b : Board) (x y : Int) :
    (b.set_cell x y none).set_cell x y (b.get_cell x y) = b := by
  cases b with
  | mk R C cells =>
    simp only [Board.set_cell, Board.get_cell, Board.mk.injEq, true_and]
    funext x' y'
    by_cases h : x' = x ∧ y' = y
    · obtain ⟨rfl, rfl⟩ := h
      simp
    · simp [h]

/-- PathAccumulator push and pop are strict inverses. -/
@[simp]
theorem Word.pop_add (w : Word) (c : Cell) : (w.add c).pop = w := by
  cases w with
  | mk cs => simp [Word.add, Word.pop]

/-! ## Restoration of the board and the path by `_dfs`

The Python `_dfs` mutates the board (`set_cell(x, y, None)` … `set_cell(x, y,
temp_cell)`) and the path (`add` … `pop`) but undoes both before returning.
In the state-passing model this is: whenever `dfs` returns, the board and word
components of its result equal its board and word arguments. -/

theorem dfsDirs_restore
    (rec : Board → Int → Int → Word → Option TrieNode → WordList →
      Option (Board × Word × WordList))
    (hrec : ∀ b x y w n f r, rec b x y w n f = some r → r.1 = b ∧ r.2.1 = w) :
    ∀ dirs b x y w node f r, dfsDirs rec dirs b x y w node f = some r →
      r.1 = b ∧ r.2.1 = w := by
  intro dirs
  induction dirs with
  | nil =>
    intro b x y w node f r h
    simp only [dfsDirs, Option.some.injEq] at h
    subst h
    exact ⟨rfl, rfl⟩
  | cons d rest ih =>
    intro b x y w node f r h
    obtain ⟨dx, dy⟩ := d
    simp only [dfsDirs] at h
    by_cases hg : 0 ≤ x + dx ∧ x + dx < (b.ROWS : Int) ∧ 0 ≤ y + dy ∧ y + dy < (b.COLS : Int)
    · rw [if_pos hg] at h
      cases hc : b.get_cell (x + dx) (y + dy) with
      | none =>
        rw [hc] at h
        exact ih b x y w node f r h
      | some next_cell =>
        rw [hc] at h
        dsimp only at h
        cases hl : childLookup node.children next_cell.value with
        | none =>
          rw [hl] at h
          exact ih b x y w node f r h
        | some child =>
          rw [hl] at h
          dsimp only at h
          cases hr : rec b (x + dx) (y + dy) (w.add next_cell) (some child) f with
          | none =>
            rw [hr] at h
            exact absurd h (by simp)
          | some r2 =>
            obtain ⟨b2, w2, f2⟩ := r2
            rw [hr] at h
            have h' : dfsDirs rec rest b2 x y w2.pop node f2 = some r := h
            obtain ⟨hb2, hw2⟩ := hrec _ _ _ _ _ _ _ hr
            simp only at hb2 hw2
            rw [hw2, Word.pop_add, hb2] at h'
            exact ih b x y w node f2 r h'
    · rw [if_neg hg] at h
      exact ih b x y w node f r h

theorem dfs_restore :
    ∀ fuel b x y w n f r, dfs fuel b x y w n f = some r → r.1 = b ∧ r.2.1 = w := by
  intro fuel
  induction fuel with
  | zero =>
    intro b x y w n f r h
    cases n with
    | none =>
      simp only [dfs, Option.some.injEq] at h
      subst h
      exact ⟨rfl, rfl⟩
    | some node => exact absurd h (by simp [dfs])
  | succ fuel ih =>
    intro b x y w n f r h
    cases n with
    | none =>
      simp only [dfs, Option.some.injEq] at h
      subst h
      exact ⟨rfl, rfl⟩
    | some node =>
      simp only [dfs] at h
      cases hdirs : dfsDirs (dfs fuel) directions (b.set_cell x y none) x y w node
          (if node.is_end_of_word = true then f.addFound (w.render, w.getPath) else f) with
      | none =>
        rw [hdirs] at h
        exact absurd h (by simp)
      | some r2 =>
        obtain ⟨b2, w2, f2⟩ := r2
        rw [hdirs] at h
        have h' : some (b2.set_cell x y (b.get_cell x y), w2, f2) = some r := h
        obtain ⟨hb2, hw2⟩ := dfsDirs_restore (dfs fuel) ih directions _ x y w node _ _ hdirs
        simp only at hb2 hw2
        simp only [Option.some.injEq] at h'
        subst h'
        subst hb2
        subst hw2
        exact ⟨Board.set_set_restore b x y, rfl⟩

theorem findLoop_restore (root : TrieNode) :
    ∀ coords b f r, findLoop root coords b f = some r → r.1 = b := by
  intro coords
  induction coords with
  | nil =>
    intro b f r h
    simp only [findLoop, Option.some.injEq] at h
    subst h
    rfl
  | cons p rest ih =>
    intro b f r h
    obtain ⟨x, y⟩ := p
    simp only [findLoop] at h
    cases hcell : b.get_cell x y with
    | none =>
      rw [hcell] at h
      exact absurd h (by simp)
    | some cell =>
      rw [hcell] at h
      dsimp only at h
      cases hdfs : dfs (b.ROWS * b.COLS) b x y (Word.init cell)
          (childLookup root.children cell.value) f with
      | none =>
        rw [hdfs] at h
        exact absurd h (by simp)
      | some r2 =>
        obtain ⟨b2, w2, f2⟩ := r2
        rw [hdfs] at h
        have h' : findLoop root rest b2 f2 = some r := h
        obtain ⟨hb2, _⟩ := dfs_restore _ _ _ _ _ _ _ _ hdfs
        simp only at hb2
        rw [hb2] at h'
        exact ih b f2 r h'

theorem find_all_words_restore (root : TrieNode) (b : Board) (r : Board × WordList)
    (h : find_all_words root b = some r) : r.1 = b :=
  findLoop_restore root (boardCoords b) b ⟨[]⟩ r h

/-! ## Claim theorems: frame effect, backtracking and determinism -/

/-- C2: after `find_all_words(board)` returns, every cell of the board holds
exactly the content it held before the call — each temporary
`set_cell(x, y, None)` performed during the search is undone by restoring the
saved cell before the enclosing `_dfs` call returns, so the board shows no net
mutation. -/
theorem C2_board_unchanged (root : TrieNode) (b : Board) (r : Board × WordList)
    (h : find_all_words root b = some r) :
    ∀ x y, r.1.get_cell x y = b.get_cell x y := by
  intro x y
  rw [find_all_words_restore root b r h]

/-- A concrete 1×1 board holding the letter `a` at (0, 0). -/
def gridA : Board :=
  ⟨1, 1, fun x y => if x = 0 ∧ y = 0 then some ⟨0, 0, 'a'⟩ else none⟩

/-- The board value `find_all_words` produces from `gridA`: the start cell is
removed and then restored by the remove/restore protocol. -/
def gridA' : Board :=
  (gridA.set_cell 0 0 none).set_cell 0 0 (gridA.get_cell 0 0)

theorem C2_board_unchanged_witness :
    gridA'.get_cell 0 0 = gridA.get_cell 0 0 :=
  C2_board_unchanged (buildTrie ["a"]) gridA
    (gridA', ⟨[(String.mk ['a'], [(0, 0)])]⟩) rfl 0 0

/-- C8: for every call of `_dfs` made during a search, the accumulated path
(`current_word`) is identical before and after the call: every `add` of a
neighbor cell is matched by exactly one `pop` on return, so sibling
iterations and the caller observe the path unchanged (found words having been
committed to the result list separately). -/
theorem C8_path_restored (fuel : Nat) (b : Board) (x y : Int) (w : Word)
    (n : Option TrieNode) (f : WordList) (r : Board × Word × WordList)
    (h : dfs fuel b x y w n f = some r) : r.2.1 = w :=
  (dfs_restore fuel b x y w n f r h).2

theorem C8_path_restored_witness :
    (gridA', Word.init ⟨0, 0, 'a'⟩,
      (⟨[(String.mk ['a'], [(0, 0)])]⟩ : WordList)).2.1 = Word.init ⟨0, 0, 'a'⟩ :=
  C8_path_restored 1 gridA 0 0 (Word.init ⟨0, 0, 'a'⟩) (some ⟨[], true⟩) ⟨[]⟩
    (gridA', Word.init ⟨0, 0, 'a'⟩, ⟨[(String.mk ['a'], [(0, 0)])]⟩) rfl

/-- C7: `find_all_words` is deterministic — for a fixed trie, running the
search again on the board as left by a completed first call (which restored
it) produces the identical result: the same word list, with the same emission
sequence of (word, path) pairs. -/
theorem C7_deterministic (root : TrieNode) (b : Board) (r : Board × WordList)
    (h : find_all_words root b = some r) : find_all_words root r.1 = some r := by
  rw [find_all_words_restore root b r h]
  exact h

theorem C7_deterministic_witness :
    find_all_words (buildTrie ["a"])
      ((gridA', (⟨[(String.mk ['a'], [(0, 0)])]⟩ : WordList)) : Board × WordList).1 =
      some (gridA', ⟨[(String.mk ['a'], [(0, 0)])]⟩) :=
  C7_deterministic (buildTrie ["a"]) gridA (gridA', ⟨[(String.mk ['a'], [(0, 0)])]⟩) rfl

/-! ## Termination: the present-cell count bounds the recursion depth -/

theorem wellFormed_set_none (b : Board) (x y : Int) (hwf : wellFormed b) :
    wellFormed (b.set_cell x y none) := by
  intro x' y' c h
  simp only [Board.set_cell] at h
  by_cases hc : x' = x ∧ y' = y
  · rw [if_pos hc] at h
    exact absurd h (by simp)
  · rw [if_neg hc] at h
    exact hwf x' y' c h

/-- The coordinate of a present cell of a well-formed board belongs to the
counted coordinate set. -/
theorem mem_presentSet (b : Board) (x y : Int) (c : Cell) (hwf : wellFormed b)
    (h : b.get_cell x y = some c) :
    (x.toNat, y.toNat) ∈ ((Finset.range b.COLS ×ˢ Finset.range b.ROWS).filter
      (fun p => (b.cells (p.1 : Int) (p.2 : Int)).isSome)) := by
  obtain ⟨hx0, hxC, hy0, hyR, _, _⟩ := hwf x y c h
  have hx : ((x.toNat : Nat) : Int) = x := Int.toNat_of_nonneg hx0
  have hy : ((y.toNat : Nat) : Int) = y := Int.toNat_of_nonneg hy0
  refine Finset.mem_filter.mpr ⟨Finset.mem_product.mpr ⟨?_, ?_⟩, ?_⟩
  · exact Finset.mem_range.mpr (by omega)
  · exact Finset.mem_range.mpr (by omega)
  · simp only [hx, hy]
    exact (Option.isSome_iff_exists.mpr ⟨c, h⟩)

theorem presentCount_pos (b : Board) (x y : Int) (c : Cell) (hwf : wellFormed b)
    (h : b.get_cell x y = some c) : 0 < presentCount b :=
  Finset.card_pos.mpr ⟨_, mem_presentSet b x y c hwf h⟩

/-- Removing a present in-bounds cell strictly decreases the present-cell
count. -/
theorem presentCount_set_none_lt (b : Board) (x y : Int) (c : Cell) (hwf : wellFormed b)
    (h : b.get_cell x y = some c) :
    presentCount (b.set_cell x y none) < presentCount b := by
  have hsub : ((Finset.range b.COLS ×ˢ Finset.range b.ROWS).filter
      (fun p => ((b.set_cell x y none).cells (p.1 : Int) (p.2 : Int)).isSome)) ⊆
      ((Finset.range b.COLS ×ˢ Finset.range b.ROWS).filter
      (fun p => (b.cells (p.1 : Int) (p.2 : Int)).isSome)) := by
    intro p hp
    obtain ⟨hmem, hsome⟩ := Finset.mem_filter.mp hp
    refine Finset.mem_filter.mpr ⟨hmem, ?_⟩
    simp only [Board.set_cell] at hsome
    by_cases hc : ((p.1 : Int)) = x ∧ ((p.2 : Int)) = y
    · rw [if_pos hc] at hsome
      exact absurd hsome (by simp)
    · rwa [if_neg hc] at hsome
  have hx0 : 0 ≤ x := (hwf x y c h).1
  have hy0 : 0 ≤ y := (hwf x y c h).2.2.1
  have hx : ((x.toNat : Nat) : Int) = x := Int.toNat_of_nonneg hx0
  have hy : ((y.toNat : Nat) : Int) = y := Int.toNat_of_nonneg hy0
  have hmem := mem_presentSet b x y c hwf h
  have hnot : (x.toNat, y.toNat) ∉ ((Finset.range b.COLS ×ˢ Finset.range b.ROWS).filter
      (fun p => ((b.set_cell x y none).cells (p.1 : Int) (p.2 : Int)).isSome)) := by
    intro hin
    obtain ⟨_, hsome⟩ := Finset.mem_filter.mp hin
    simp only [Board.set_cell, hx, hy] at hsome
    simp at hsome
  have hss : ((Finset.range b.COLS ×ˢ Finset.range b.ROWS).filter
      (fun p => ((b.set_cell x y none).cells (p.1 : Int) (p.2 : Int)).isSome)) ⊂
      ((Finset.range b.COLS ×ˢ Finset.range b.ROWS).filter
      (fun p => (b.cells (p.1 : Int) (p.2 : Int)).isSome)) :=
    (Finset.ssubset_iff_of_subset hsub).mpr ⟨_, hmem, hnot⟩
  have := Finset.card_lt_card hss
  simpa [presentCount] using this

theorem presentCount_le (b : Board) : presentCount b ≤ b.ROWS * b.COLS := by
  calc presentCount b ≤ (Finset.range b.COLS ×ˢ Finset.range b.ROWS).card :=
        Finset.card_filter_le _ _
    _ = b.COLS * b.ROWS := by simp [Finset.card_product]
    _ = b.ROWS * b.COLS := Nat.mul_comm _ _

/-- `_dfs` completes (does not run out of fuel) whenever the fuel is at least
the number of present cells and the current cell is present: at most one
present cell is consumed per recursion depth. -/
theorem dfs_isSome :
    ∀ fuel b x y (w : Word) node (f : WordList), wellFormed b → presentCount b ≤ fuel →
      (b.get_cell x y).isSome → (dfs fuel b x y w (some node) f).isSome := by
  intro fuel
  induction fuel with
  | zero =>
    intro b x y w node f hwf hcount hsome
    obtain ⟨c, hc⟩ := Option.isSome_iff_exists.mp hsome
    have := presentCount_pos b x y c hwf hc
    omega
  | succ fuel ih =>
    intro b x y w node f hwf hcount hsome
    obtain ⟨c, hc⟩ := Option.isSome_iff_exists.mp hsome
    have hwf1 : wellFormed (b.set_cell x y none) := wellFormed_set_none b x y hwf
    have hcount1 : presentCount (b.set_cell x y none) ≤ fuel := by
      have := presentCount_set_none_lt b x y c hwf hc
      omega
    -- the direction loop completes
    have hdirs : ∀ dirs b' (w' : Word) (f' : WordList), wellFormed b' →
        presentCount b' ≤ fuel →
        (dfsDirs (dfs fuel) dirs b' x y w' node f').isSome := by
      intro dirs
      induction dirs with
      | nil =>
        intro b' w' f' _ _
        simp [dfsDirs]
      | cons d rest ihd =>
        intro b' w' f' hwf' hcount'
        obtain ⟨dx, dy⟩ := d
        simp only [dfsDirs]
        by_cases hg : 0 ≤ x + dx ∧ x + dx < (b'.ROWS : Int) ∧ 0 ≤ y + dy ∧
            y + dy < (b'.COLS : Int)
        · rw [if_pos hg]
          cases hcn : b'.get_cell (x + dx) (y + dy) with
          | none => exact ihd b' w' f' hwf' hcount'
          | some next_cell =>
            dsimp only
            cases hl : childLookup node.children next_cell.value with
            | none => exact ihd b' w' f' hwf' hcount'
            | some child =>
              dsimp only
              have hrec := ih b' (x + dx) (y + dy) (w'.add next_cell) child f' hwf' hcount'
                (Option.isSome_iff_exists.mpr ⟨next_cell, hcn⟩)
              cases hr : dfs fuel b' (x + dx) (y + dy) (w'.add next_cell) (some child) f' with
              | none => rw [hr] at hrec; exact absurd hrec (by simp)
              | some r2 =>
                obtain ⟨b2, w2, f2⟩ := r2
                obtain ⟨hb2, hw2⟩ := dfs_restore fuel b' (x + dx) (y + dy)
                  (w'.add next_cell) (some child) f' (b2, w2, f2) hr
                simp only at hb2 hw2
                dsimp only
                rw [hw2, Word.pop_add, hb2]
                exact ihd b' w' f2 hwf' hcount'
        · rw [if_neg hg]
          exact ihd b' w' f' hwf' hcount'
    have hmain := hdirs directions (b.set_cell x y none) w
      (if node.is_end_of_word then WordList.addFound f (w.render, w.getPath) else f)
      hwf1 hcount1
    simp only [dfs]
    cases hres : dfsDirs (dfs fuel) directions (b.set_cell x y none) x y w node
        (if node.is_end_of_word = true then f.addFound (w.render, w.getPath) else f) with
    | none => rw [hres] at hmain; exact absurd hmain (by simp)
    | some r2 =>
      obtain ⟨b2, w2, f2⟩ := r2
      simp

/-- Every coordinate enumerated by `find_all_words` is inside the bounds it
iterates over, and conversely. -/
theorem mem_boardCoords (b : Board) (x y : Int) (hx0 : 0 ≤ x) (hxC : x < (b.COLS : Int))
    (hy0 : 0 ≤ y) (hyR : y < (b.ROWS : Int)) : (x, y) ∈ boardCoords b := by
  have hxn : ((x.toNat : Nat) : Int) = x := Int.toNat_of_nonneg hx0
  have hyn : ((y.toNat : Nat) : Int) = y := Int.toNat_of_nonneg hy0
  refine List.mem_flatMap.mpr ⟨y.toNat, List.mem_range.mpr (by omega), ?_⟩
  refine List.mem_map.mpr ⟨x.toNat, List.mem_range.mpr (by omega), ?_⟩
  rw [hxn, hyn]

theorem bounds_of_mem_boardCoords (b : Board) (x y : Int)
    (h : (x, y) ∈ boardCoords b) :
    0 ≤ x ∧ x < (b.COLS : Int) ∧ 0 ≤ y ∧ y < (b.ROWS : Int) := by
  obtain ⟨yn, hyn, hin⟩ := List.mem_flatMap.mp h
  obtain ⟨xn, hxn, heq⟩ := List.mem_map.mp hin
  rw [List.mem_range] at hyn hxn
  injection heq with h1 h2
  subst h1
  subst h2
  exact ⟨by omega, by omega, by omega, by omega⟩

/-- The start-cell loop completes when the board is well-formed and every
coordinate it will visit holds a present cell. -/
theorem findLoop_isSome (root : TrieNode) :
    ∀ coords b f, wellFormed b → presentCount b ≤ b.ROWS * b.COLS →
      (∀ x y, (x, y) ∈ coords → (b.get_cell x y).isSome) →
      (findLoop root coords b f).isSome := by
  intro coords
  induction coords with
  | nil =>
    intro b f _ _ _
    simp [findLoop]
  | cons p rest ih =>
    intro b f hwf hcount hpres
    obtain ⟨x, y⟩ := p
    simp only [findLoop]
    have hsome : (b.get_cell x y).isSome := hpres x y (List.mem_cons_self _ _)
    obtain ⟨cell, hcell⟩ := Option.isSome_iff_exists.mp hsome
    rw [hcell]
    dsimp only
    cases hn : childLookup root.children cell.value with
    | none =>
      -- `_dfs` is entered with a `None` trie node and returns immediately
      have hdfs : dfs (b.ROWS * b.COLS) b x y (Word.init cell) none f = some (b, Word.init cell, f) := by
        cases hfuel : b.ROWS * b.COLS with
        | zero => rfl
        | succ n => rfl
      rw [hdfs]
      dsimp only
      exact ih b f hwf hcount (fun x' y' hm => hpres x' y' (List.mem_cons_of_mem _ hm))
    | some node =>
      have hd := dfs_isSome (b.ROWS * b.COLS) b x y (Word.init cell) node f hwf hcount hsome
      cases hr : dfs (b.ROWS * b.COLS) b x y (Word.init cell) (some node) f with
      | none => rw [hr] at hd; exact absurd hd (by simp)
      | some r2 =>
        obtain ⟨b2, w2, f2⟩ := r2
        obtain ⟨hb2, _⟩ := dfs_restore _ _ _ _ _ _ _ _ hr
        simp only at hb2
        dsimp only
        rw [hb2]
        exact ih b f2 hwf hcount (fun x' y' hm => hpres x' y' (List.mem_cons_of_mem _ hm))

/-- C9: for every well-formed, fully populated board and any trie, the
depth-first search terminates — each recursive call consumes a present cell
(the current cell is made absent before recursing), so the recursion depth is
bounded by the number of present cells, itself at most ROWS×COLS, and
`find_all_words` run with that fuel completes. -/
theorem C9_terminates (root : TrieNode) (b : Board) (hwf : wellFormed b)
    (hfull : ∀ x y, 0 ≤ x → x < (b.COLS : Int) → 0 ≤ y → y < (b.ROWS : Int) →
      (b.get_cell x y).isSome) :
    (find_all_words root b).isSome := by
  refine findLoop_isSome root (boardCoords b) b ⟨[]⟩ hwf (presentCount_le b) ?_
  intro x y hm
  obtain ⟨h1, h2, h3, h4⟩ := bounds_of_mem_boardCoords b x y hm
  exact hfull x y h1 h2 h3 h4

theorem gridA_wellFormed : wellFormed gridA := by
  intro x y c h
  by_cases hxy : x = 0 ∧ y = 0
  · obtain ⟨rfl, rfl⟩ := hxy
    simp only [gridA] at h
    simp only [and_self, if_true, Option.some.injEq] at h
    subst h
    refine ⟨le_refl 0, by decide, le_refl 0, by decide, rfl, rfl⟩
  · simp only [gridA] at h
    rw [if_neg hxy] at h
    exact absurd h (by simp)

theorem C9_terminates_witness : (find_all_words (buildTrie ["a"]) gridA).isSome := by
  refine C9_terminates (buildTrie ["a"]) gridA gridA_wellFormed ?_
  intro x y h1 h2 h3 h4
  have hx : x = 0 := by simp only [gridA] at h2 ⊢; omega
  have hy : y = 0 := by simp only [gridA] at h4 ⊢; omega
  subst hx
  subst hy
  simp [gridA, Board.get_cell]

/-- A 1×1 board whose only in-bounds coordinate holds no cell. -/
def gridNone : Board := ⟨1, 1, fun _ _ => none⟩

/-- On encountering an absent start cell the loop hits `None` where it
dereferences `cell.value` with no guard: the call fails. -/
theorem findLoop_none (root : TrieNode) :
    ∀ coords b f x y, (x, y) ∈ coords → b.get_cell x y = none →
      findLoop root coords b f = none := by
  intro coords
  induction coords with
  | nil =>
    intro b f x y hm _
    exact absurd hm (List.not_mem_nil _)
  | cons p rest ih =>
    intro b f x y hm habs
    obtain ⟨a, a'⟩ := p
    simp only [findLoop]
    cases hcell : b.get_cell a a' with
    | none => rfl
    | some cell =>
      dsimp only
      have hne : ¬((x, y) = (a, a')) := by
        intro he
        obtain ⟨rfl, rfl⟩ := Prod.mk.injEq .. ▸ he
        rw [habs] at hcell
        exact absurd hcell (by simp)
      have hmr : (x, y) ∈ rest := by
        cases List.mem_cons.mp hm with
        | inl h => exact absurd h hne
        | inr h => exact h
      cases hr : dfs (b.ROWS * b.COLS) b a a' (Word.init cell)
          (childLookup root.children cell.value) f with
      | none => rfl
      | some r2 =>
        obtain ⟨b2, w2, f2⟩ := r2
        obtain ⟨hb2, _⟩ := dfs_restore _ _ _ _ _ _ _ _ hr
        simp only at hb2
        dsimp only
        rw [hb2]
        exact ih b f2 x y hmr habs

/-- C10: `find_all_words` requires every in-bounds coordinate to hold a
present cell at call time — the start-cell loop dereferences
`cell.value` with no absence guard, so on a board with an absent in-bounds
cell the entry point fails (the model yields `none`) rather than skipping
that start cell. -/
theorem C10_absent_start_cell_fails (root : TrieNode) (b : Board) (x y : Int)
    (hx0 : 0 ≤ x) (hxC : x < (b.COLS : Int)) (hy0 : 0 ≤ y) (hyR : y < (b.ROWS : Int))
    (habs : b.get_cell x y = none) : find_all_words root b = none :=
  findLoop_none root (boardCoords b) b ⟨[]⟩ x y
    (mem_boardCoords b x y hx0 hxC hy0 hyR) habs

theorem C10_absent_start_cell_fails_witness :
    find_all_words (buildTrie ["a"]) gridNone = none :=
  C10_absent_start_cell_fails (buildTrie ["a"]) gridNone 0 0 (by decide) (by decide)
    (by decide) (by decide) rfl

/-! ## Trie correctness -/

/-- A walk from `t` reaches a terminal node: the letter sequence is a member
of the trie's language. -/
def trieEnd (t : TrieNode) (s : List Char) : Prop :=
  ∃ n, walkTrie t s = some n ∧ n.is_end_of_word = true

@[simp]
theorem walkTrie_nil (t : TrieNode) : walkTrie t [] = some t := rfl

theorem walkTrie_cons (t : TrieNode) (c : Char) (cs : List Char) :
    walkTrie t (c :: cs) =
      match childLookup t.children c with
      | some t' => walkTrie t' cs
      | none => none := by
  cases t
  rfl

theorem childLookup_replace_self (ch : List (Char × TrieNode)) (c : Char)
    (t0 nt : TrieNode) (h : childLookup ch c = some t0) :
    childLookup (childReplace ch c nt) c = some nt := by
  induction ch with
  | nil => exact absurd h (by simp [childLookup])
  | cons p rest ih =>
    obtain ⟨c', t⟩ := p
    by_cases hc : c' = c
    · subst hc
      simp [childReplace, childLookup]
    · simp only [childLookup, if_neg hc] at h
      simp only [childReplace, if_neg hc, childLookup]
      exact ih h

theorem childLookup_replace_ne (ch : List (Char × TrieNode)) (c d : Char)
    (nt : TrieNode) (h : d ≠ c) :
    childLookup (childReplace ch c nt) d = childLookup ch d := by
  induction ch with
  | nil => rfl
  | cons p rest ih =>
    obtain ⟨c', t⟩ := p
    by_cases hc : c' = c
    · subst hc
      simp only [childReplace, if_pos rfl, childLookup]
      rw [if_neg (fun he => h he.symm), if_neg]
      intro he
      exact h he.symm
    · simp only [childReplace, if_neg hc, childLookup]
      by_cases hd : c' = d
      · rw [if_pos hd, if_pos hd]
      · rw [if_neg hd, if_neg hd]
        exact ih

theorem childLookup_append_self (ch : List (Char × TrieNode)) (c : Char)
    (nt : TrieNode) (h : childLookup ch c = none) :
    childLookup (ch ++ [(c, nt)]) c = some nt := by
  induction ch with
  | nil => simp [childLookup]
  | cons p rest ih =>
    obtain ⟨c', t⟩ := p
    by_cases hc : c' = c
    · simp [childLookup, if_pos hc] at h
    · simp only [childLookup, if_neg hc] at h
      simp only [List.cons_append, childLookup, if_neg hc]
      exact ih h

theorem childLookup_append_ne (ch : List (Char × TrieNode)) (c d : Char)
    (nt : TrieNode) (h : d ≠ c) :
    childLookup (ch ++ [(c, nt)]) d = childLookup ch d := by
  induction ch with
  | nil =>
    simp only [List.nil_append, childLookup]
    rw [if_neg (fun he => h he.symm)]
  | cons p rest ih =>
    obtain ⟨c', t⟩ := p
    simp only [List.cons_append, childLookup]
    by_cases hd : c' = d
    · rw [if_pos hd, if_pos hd]
    · rw [if_neg hd, if_neg hd]
      exact ih

/-- The fresh node `TrieNode()` accepts nothing. -/
theorem not_trieEnd_empty (u : List Char) : ¬ trieEnd ⟨[], false⟩ u := by
  cases u with
  | nil =>
    rintro ⟨n, hn, he⟩
    simp only [walkTrie_nil, Option.some.injEq] at hn
    subst hn
    exact absurd he (by simp [TrieNode.is_end_of_word])
  | cons c cs =>
    rintro ⟨n, hn, _⟩
    rw [walkTrie_cons] at hn
    simp [TrieNode.children, childLookup] at hn

theorem walkTrie_empty_isSome (u : List Char) :
    (walkTrie (⟨[], false⟩ : TrieNode) u).isSome ↔ u = [] := by
  cases u with
  | nil => simp
  | cons c cs =>
    rw [walkTrie_cons]
    simp [TrieNode.children, childLookup]

/-- Language of the trie after one insertion: the inserted word, plus
everything already accepted. -/
theorem trieEnd_insertWord (s : List Char) :
    ∀ (t : TrieNode) (u : List Char), trieEnd (insertWord t s) u ↔ u = s ∨ trieEnd t u := by
  induction s with
  | nil =>
    intro t u
    cases u with
    | nil =>
      simp only [List.nil_eq, true_or, iff_true]
      exact ⟨⟨t.children, true⟩, by cases t; rfl, rfl⟩
    | cons d ds =>
      have hw : walkTrie (insertWord t []) (d :: ds) = walkTrie t (d :: ds) := by
        rw [walkTrie_cons, walkTrie_cons]
        cases t
        rfl
      constructor
      · rintro ⟨n, hn, he⟩
        exact Or.inr ⟨n, hw ▸ hn, he⟩
      · rintro (h | ⟨n, hn, he⟩)
        · exact absurd h (by simp)
        · exact ⟨n, hw ▸ hn, he⟩
  | cons c cs ih =>
    intro t u
    cases hl : childLookup t.children c with
    | some t0 =>
      have hins : insertWord t (c :: cs) =
          ⟨childReplace t.children c (insertWord t0 cs), t.is_end_of_word⟩ := by
        cases t
        simp only [insertWord]
        rw [hl]
      cases u with
      | nil =>
        rw [hins]
        constructor
        · rintro ⟨n, hn, he⟩
          simp only [walkTrie_nil, Option.some.injEq] at hn
          subst hn
          refine Or.inr ⟨t, rfl, ?_⟩
          simpa [TrieNode.is_end_of_word] using he
        · rintro (h | ⟨n, hn, he⟩)
          · exact absurd h (by simp)
          · simp only [walkTrie_nil, Option.some.injEq] at hn
            subst hn
            exact ⟨_, rfl, by simpa [TrieNode.is_end_of_word] using he⟩
      | cons d ds =>
        by_cases hd : d = c
        · subst hd
          have hw1 : walkTrie (insertWord t (d :: cs)) (d :: ds) =
              walkTrie (insertWord t0 cs) ds := by
            rw [hins, walkTrie_cons]
            simp only [TrieNode.children_mk]
            rw [childLookup_replace_self t.children d t0 _ hl]
          have hw2 : walkTrie t (d :: ds) = walkTrie t0 ds := by
            rw [walkTrie_cons, hl]
          constructor
          · rintro ⟨n, hn, he⟩
            rw [hw1] at hn
            rcases (ih t0 ds).mp ⟨n, hn, he⟩ with h | ⟨n', hn', he'⟩
            · exact Or.inl (by rw [h])
            · exact Or.inr ⟨n', by rw [hw2]; exact hn', he'⟩
          · rintro (h | ⟨n, hn, he⟩)
            · have hds : ds = cs := by injection h
              subst hds
              obtain ⟨n, hn, he⟩ := (ih t0 ds).mpr (Or.inl rfl)
              exact ⟨n, by rw [hw1]; exact hn, he⟩
            · rw [hw2] at hn
              obtain ⟨n', hn', he'⟩ := (ih t0 ds).mpr (Or.inr ⟨n, hn, he⟩)
              exact ⟨n', by rw [hw1]; exact hn', he'⟩
        · have hw : walkTrie (insertWord t (c :: cs)) (d :: ds) = walkTrie t (d :: ds) := by
            rw [hins, walkTrie_cons, walkTrie_cons]
            simp only [TrieNode.children_mk]
            rw [childLookup_replace_ne t.children c d _ hd]
          constructor
          · rintro ⟨n, hn, he⟩
            exact Or.inr ⟨n, hw ▸ hn, he⟩
          · rintro (h | ⟨n, hn, he⟩)
            · exact absurd h (fun he' => hd (by injection he'))
            · exact ⟨n, hw ▸ hn, he⟩
    | none =>
      have hins : insertWord t (c :: cs) =
          ⟨t.children ++ [(c, insertWord ⟨[], false⟩ cs)], t.is_end_of_word⟩ := by
        cases t
        simp only [insertWord]
        rw [hl]
      cases u with
      | nil =>
        rw [hins]
        constructor
        · rintro ⟨n, hn, he⟩
          simp only [walkTrie_nil, Option.some.injEq] at hn
          subst hn
          refine Or.inr ⟨t, rfl, ?_⟩
          simpa [TrieNode.is_end_of_word] using he
        · rintro (h | ⟨n, hn, he⟩)
          · exact absurd h (by simp)
          · simp only [walkTrie_nil, Option.some.injEq] at hn
            subst hn
            exact ⟨_, rfl, by simpa [TrieNode.is_end_of_word] using he⟩
      | cons d ds =>
        by_cases hd : d = c
        · subst hd
          have hw1 : walkTrie (insertWord t (d :: cs)) (d :: ds) =
              walkTrie (insertWord ⟨[], false⟩ cs) ds := by
            rw [hins, walkTrie_cons]
            simp only [TrieNode.children_mk]
            rw [childLookup_append_self t.children d _ hl]
          have hw2 : walkTrie t (d :: ds) = none := by
            rw [walkTrie_cons, hl]
          constructor
          · rintro ⟨n, hn, he⟩
            rw [hw1] at hn
            rcases (ih ⟨[], false⟩ ds).mp ⟨n, hn, he⟩ with h | hend
            · exact Or.inl (by rw [h])
            · exact absurd hend (not_trieEnd_empty ds)
          · rintro (h | ⟨n, hn, he⟩)
            · have hds : ds = cs := by injection h
              subst hds
              obtain ⟨n, hn, he⟩ := (ih ⟨[], false⟩ ds).mpr (Or.inl rfl)
              exact ⟨n, by rw [hw1]; exact hn, he⟩
            · rw [hw2] at hn
              exact absurd hn (by simp)
        · have hw : walkTrie (insertWord t (c :: cs)) (d :: ds) = walkTrie t (d :: ds) := by
            rw [hins, walkTrie_cons, walkTrie_cons]
            simp only [TrieNode.children_mk]
            rw [childLookup_append_ne t.children c d _ hd]
          constructor
          · rintro ⟨n, hn, he⟩
            exact Or.inr ⟨n, hw ▸ hn, he⟩
          · rintro (h | ⟨n, hn, he⟩)
            · exact absurd h (fun he' => hd (by injection he'))
            · exact ⟨n, hw ▸ hn, he⟩

/-- Reachable prefixes of the trie after one insertion: the prefixes of the
inserted word, plus everything already reachable. -/
theorem walkTrie_insertWord_isSome (s : List Char) :
    ∀ (t : TrieNode) (u : List Char),
      (walkTrie (insertWord t s) u).isSome ↔ u <+: s ∨ (walkTrie t u).isSome := by
  induction s with
  | nil =>
    intro t u
    cases u with
    | nil => simp
    | cons d ds =>
      have hw : walkTrie (insertWord t []) (d :: ds) = walkTrie t (d :: ds) := by
        rw [walkTrie_cons, walkTrie_cons]
        cases t
        rfl
      rw [hw]
      simp
  | cons c cs ih =>
    intro t u
    cases hl : childLookup t.children c with
    | some t0 =>
      have hins : insertWord t (c :: cs) =
          ⟨childReplace t.children c (insertWord t0 cs), t.is_end_of_word⟩ := by
        cases t
        simp only [insertWord]
        rw [hl]
      cases u with
      | nil => simp
      | cons d ds =>
        by_cases hd : d = c
        · subst hd
          have hw1 : walkTrie (insertWord t (d :: cs)) (d :: ds) =
              walkTrie (insertWord t0 cs) ds := by
            rw [hins, walkTrie_cons]
            simp only [TrieNode.children_mk]
            rw [childLookup_replace_self t.children d t0 _ hl]
          have hw2 : walkTrie t (d :: ds) = walkTrie t0 ds := by
            rw [walkTrie_cons, hl]
          rw [hw1, hw2, ih t0 ds, List.cons_prefix_cons]
          simp
        · have hw : walkTrie (insertWord t (c :: cs)) (d :: ds) = walkTrie t (d :: ds) := by
            rw [hins, walkTrie_cons, walkTrie_cons]
            simp only [TrieNode.children_mk]
            rw [childLookup_replace_ne t.children c d _ hd]
          rw [hw, List.cons_prefix_cons]
          simp [hd]
    | none =>
      have hins : insertWord t (c :: cs) =
          ⟨t.children ++ [(c, insertWord ⟨[], false⟩ cs)], t.is_end_of_word⟩ := by
        cases t
        simp only [insertWord]
        rw [hl]
      cases u with
      | nil => simp
      | cons d ds =>
        by_cases hd : d = c
        · subst hd
          have hw1 : walkTrie (insertWord t (d :: cs)) (d :: ds) =
              walkTrie (insertWord ⟨[], false⟩ cs) ds := by
            rw [hins, walkTrie_cons]
            simp only [TrieNode.children_mk]
            rw [childLookup_append_self t.children d _ hl]
          have hw2 : walkTrie t (d :: ds) = none := by
            rw [walkTrie_cons, hl]
          rw [hw1, hw2, ih ⟨[], false⟩ ds, walkTrie_empty_isSome, List.cons_prefix_cons]
          constructor
          · rintro (h | rfl)
            · exact Or.inl ⟨rfl, h⟩
            · exact Or.inl ⟨rfl, List.nil_prefix⟩
          · rintro (⟨_, h⟩ | h)
            · exact Or.inl h
            · exact absurd h (by simp)
        · have hw : walkTrie (insertWord t (c :: cs)) (d :: ds) = walkTrie t (d :: ds) := by
            rw [hins, walkTrie_cons, walkTrie_cons]
            simp only [TrieNode.children_mk]
            rw [childLookup_append_ne t.children c d _ hd]
          rw [hw, List.cons_prefix_cons]
          simp [hd]

/-- Language of the trie built by folding insertions over a word list. -/
theorem trieEnd_foldl :
    ∀ (ws : List String) (t : TrieNode) (u : List Char),
      trieEnd (ws.foldl (fun t w => insertWord t w.toList) t) u ↔
        (∃ w ∈ ws, w.toList = u) ∨ trieEnd t u := by
  intro ws
  induction ws with
  | nil =>
    intro t u
    simp
  | cons w ws ih =>
    intro t u
    simp only [List.foldl_cons]
    rw [ih (insertWord t w.toList) u, trieEnd_insertWord]
    constructor
    · rintro (⟨w', hw', he⟩ | h | h)
      · exact Or.inl ⟨w', List.mem_cons_of_mem _ hw', he⟩
      · exact Or.inl ⟨w, List.mem_cons_self _ _, h.symm⟩
      · exact Or.inr h
    · rintro (⟨w', hw', he⟩ | h)
      · rcases List.mem_cons.mp hw' with rfl | hw'
        · exact Or.inr (Or.inl he.symm)
        · exact Or.inl ⟨w', hw', he⟩
      · exact Or.inr (Or.inr h)

/-- Reachable prefixes of the trie built by folding insertions. -/
theorem walkTrie_foldl_isSome :
    ∀ (ws : List String) (t : TrieNode) (u : List Char),
      (walkTrie (ws.foldl (fun t w => insertWord t w.toList) t) u).isSome ↔
        (∃ w ∈ ws, u <+: w.toList) ∨ (walkTrie t u).isSome := by
  intro ws
  induction ws with
  | nil =>
    intro t u
    simp
  | cons w ws ih =>
    intro t u
    simp only [List.foldl_cons]
    rw [ih (insertWord t w.toList) u, walkTrie_insertWord_isSome]
    constructor
    · rintro (⟨w', hw', he⟩ | h | h)
      · exact Or.inl ⟨w', List.mem_cons_of_mem _ hw', he⟩
      · exact Or.inl ⟨w, List.mem_cons_self _ _, h⟩
      · exact Or.inr h
    · rintro (⟨w', hw', he⟩ | h)
      · rcases List.mem_cons.mp hw' with rfl | hw'
        · exact Or.inr (Or.inl he)
        · exact Or.inl ⟨w', hw', he⟩
      · exact Or.inr (Or.inr h)

/-- C4: for every word inserted by `_build_trie`, walking that word's letters
from the root finds a child at every step and ends on a node with
`is_end_of_word = True`; and a letter sequence reaches a node iff it is empty
(the root, always reachable) or a prefix of some inserted word — so a
sequence that is a prefix of no inserted word fails at its first diverging
letter, the first point where this stops holding. -/
theorem C4_trie_correct (ws : List String) :
    (∀ w ∈ ws, ∃ n, walkTrie (buildTrie ws) w.toList = some n ∧ n.is_end_of_word = true) ∧
    (∀ s : List Char,
      ((walkTrie (buildTrie ws) s).isSome ↔ s = [] ∨ ∃ w ∈ ws, s <+: w.toList)) := by
  constructor
  · intro w hw
    exact (trieEnd_foldl ws ⟨[], false⟩ w.toList).mpr (Or.inl ⟨w, hw, rfl⟩)
  · intro s
    have h := walkTrie_foldl_isSome ws ⟨[], false⟩ s
    rw [walkTrie_empty_isSome] at h
    simp only [buildTrie]
    rw [h]
    exact Or.comm

theorem C4_trie_correct_witness :
    ∃ n, walkTrie (buildTrie ["cat"]) "cat".toList = some n ∧ n.is_end_of_word = true :=
  (C4_trie_correct ["cat"]).1 "cat" (by simp)

/-! ## Word loading -/

theorem loadWords_mem_aux :
    ∀ (lines : List String) (acc : List String) (s : String),
      s ∈ lines.foldl (fun acc l => if strip l ∈ acc then acc else acc ++ [strip l]) acc ↔
        s ∈ acc ∨ ∃ l ∈ lines, strip l = s := by
  intro lines
  induction lines with
  | nil =>
    intro acc s
    simp
  | cons l ls ih =>
    intro acc s
    simp only [List.foldl_cons]
    by_cases hm : strip l ∈ acc
    · rw [if_pos hm, ih]
      constructor
      · rintro (h | ⟨l', hl', he⟩)
        · exact Or.inl h
        · exact Or.inr ⟨l', List.mem_cons_of_mem _ hl', he⟩
      · rintro (h | ⟨l', hl', he⟩)
        · exact Or.inl h
        · rcases List.mem_cons.mp hl' with rfl | hl'
          · exact Or.inl (he ▸ hm)
          · exact Or.inr ⟨l', hl', he⟩
    · rw [if_neg hm, ih]
      simp only [List.mem_append, List.mem_singleton]
      constructor
      · rintro ((h | h) | ⟨l', hl', he⟩)
        · exact Or.inl h
        · exact Or.inr ⟨l, List.mem_cons_self _ _, h.symm⟩
        · exact Or.inr ⟨l', List.mem_cons_of_mem _ hl', he⟩
      · rintro (h | ⟨l', hl', he⟩)
        · exact Or.inl (Or.inl h)
        · rcases List.mem_cons.mp hl' with rfl | hl'
          · exact Or.inl (Or.inr he.symm)
          · exact Or.inr ⟨l', hl', he⟩

/-- C5 (counterexample): a line that is empty after stripping is NOT skipped —
`self.words.add(line.strip())` runs unconditionally, so the empty string
enters the word set and `_build_trie` marks the trie root terminal. -/
theorem C5_counterexample :
    "" ∈ loadWords ["cat", ""] ∧
      (buildTrie (loadWords ["cat", ""])).is_end_of_word = true := by
  constructor
  · decide
  · decide

/-- C5 (amended): every line is stripped and inserted unconditionally — the
word-set members are exactly the stripped lines, whether empty or not. -/
theorem C5_amended_all_stripped_lines_inserted (lines : List String) (s : String) :
    s ∈ loadWords lines ↔ ∃ l ∈ lines, strip l = s := by
  simp only [loadWords]
  rw [loadWords_mem_aux]
  simp

/-! ## The empty-string dictionary -/

/-- `_dfs` called with an absent trie node returns immediately. -/
theorem dfs_node_none (fuel : Nat) (b : Board) (x y : Int) (w : Word) (f : WordList) :
    dfs fuel b x y w none f = some (b, w, f) := by
  cases fuel <;> rfl

theorem findLoop_no_children (root : TrieNode) (hch : root.children = []) :
    ∀ coords b f r, findLoop root coords b f = some r → r.2 = f := by
  intro coords
  induction coords with
  | nil =>
    intro b f r h
    simp only [findLoop, Option.some.injEq] at h
    subst h
    rfl
  | cons p rest ih =>
    intro b f r h
    obtain ⟨x, y⟩ := p
    simp only [findLoop] at h
    cases hcell : b.get_cell x y with
    | none =>
      rw [hcell] at h
      exact absurd h (by simp)
    | some cell =>
      rw [hcell] at h
      dsimp only at h
      rw [hch] at h
      have hnone : childLookup [] cell.value = none := rfl
      rw [hnone, dfs_node_none] at h
      dsimp only at h
      exact ih b f r h

/-- C6: if the dictionary consists of the empty string alone (the trie root
is terminal but childless), `find_all_words` returns an empty result set for
every board on which it completes: every DFS starts at a child of the root,
so the root's terminal flag never yields a zero-length found word. -/
theorem C6_empty_string_dictionary (b : Board) (r : Board × WordList)
    (h : find_all_words (buildTrie [String.mk []]) b = some r) : r.2.entries = [] := by
  have hch : (buildTrie [String.mk []]).children = [] := rfl
  rw [findLoop_no_children (buildTrie [String.mk []]) hch (boardCoords b) b ⟨[]⟩ r h]

theorem C6_empty_string_dictionary_witness :
    ((gridA, (⟨[]⟩ : WordList)) : Board × WordList).2.entries = [] :=
  C6_empty_string_dictionary gridA (gridA, ⟨[]⟩) rfl

/-! ## Validity of emitted (word, path) pairs -/

/-- Two coordinates differ by one of the 8 neighbor offsets. -/
def adjacentStep (p q : Int × Int) : Prop :=
  (q.1 - p.1, q.2 - p.2) ∈ directions

/-- A result entry is valid for the dictionary `ws`: its word is a dictionary
member and its path is a connected 8-directional walk with no repeated
coordinate. -/
def goodEntry (ws : List String) (e : String × List (Int × Int)) : Prop :=
  e.1 ∈ ws ∧ List.Chain' adjacentStep e.2 ∧ e.2.Nodup

def goodEntries (ws : List String) (f : WordList) : Prop :=
  ∀ e ∈ f.entries, goodEntry ws e

theorem goodEntries_addFound (ws : List String) (f : WordList)
    (e : String × List (Int × Int)) (hf : goodEntries ws f) (he : goodEntry ws e) :
    goodEntries ws (f.addFound e) := by
  unfold WordList.addFound
  by_cases hdup : f.entries.any (fun e' => e'.1 = e.1)
  · rw [if_pos hdup]
    exact hf
  · rw [if_neg hdup]
    intro e' he'
    rcases List.mem_append.mp he' with h | h
    · exact hf e' h
    · rw [List.mem_singleton.mp h]
      exact he

@[simp]
theorem Word.getPath_add (w : Word) (c : Cell) :
    (w.add c).getPath = w.getPath ++ [(c.x, c.y)] := by
  simp [Word.add, Word.getPath]

@[simp]
theorem Word.values_add (w : Word) (c : Cell) :
    (w.add c).cells.map (fun c => c.value) = w.cells.map (fun c => c.value) ++ [c.value] := by
  simp [Word.add]

theorem walkTrie_singleton (t : TrieNode) (v : Char) :
    walkTrie t [v] = childLookup t.children v := by
  rw [walkTrie_cons]
  cases childLookup t.children v <;> rfl

theorem walkTrie_concat :
    ∀ (l : List Char) (t : TrieNode) (v : Char),
      walkTrie t (l ++ [v]) = (walkTrie t l).bind (fun n => childLookup n.children v) := by
  intro l
  induction l with
  | nil =>
    intro t v
    simp only [List.nil_append, walkTrie_nil, Option.bind_some]
    exact walkTrie_singleton t v
  | cons c cs ih =>
    intro t v
    rw [List.cons_append, walkTrie_cons, walkTrie_cons]
    cases childLookup t.children c with
    | none => rfl
    | some t' => exact ih t' v

/-- The invariant of a `_dfs` activation: the accumulated word ends at the
current coordinate, spells a walk from the root reaching the current trie
node, traces a connected duplicate-free path, and every cell of the path
other than the current one has been removed from the board. -/
structure WalkState (root : TrieNode) (b : Board) (x y : Int) (w : Word)
    (node : TrieNode) : Prop where
  last_path : w.getPath.getLast? = some (x, y)
  walk : walkTrie root (w.cells.map (fun c => c.value)) = some node
  chain : List.Chain' adjacentStep w.getPath
  nodup : w.getPath.Nodup
  absent : ∀ p ∈ w.getPath, p = (x, y) ∨ b.get_cell p.1 p.2 = none

/-- Every entry `_dfs` adds to the found list is valid: its word is rendered
from a root walk ending terminal (hence a dictionary member), and its path is
the accumulated connected duplicate-free walk. -/
theorem dfs_good (root : TrieNode) (ws : List String)
    (hroot : ∀ s n, walkTrie root s = some n → n.is_end_of_word = true →
      String.mk s ∈ ws) :
    ∀ fuel b x y (w : Word) node (f : WordList) r, wellFormed b →
      WalkState root b x y w node → goodEntries ws f →
      dfs fuel b x y w (some node) f = some r → goodEntries ws r.2.2 := by
  intro fuel
  induction fuel with
  | zero =>
    intro b x y w node f r _ _ _ h
    exact absurd h (by simp [dfs])
  | succ fuel ih =>
    intro b x y w node f r hwf hst hgood h
    simp only [dfs] at h
    have hgood1 : goodEntries ws
        (if node.is_end_of_word = true then f.addFound (w.render, w.getPath) else f) := by
      by_cases he : node.is_end_of_word = true
      · rw [if_pos he]
        refine goodEntries_addFound ws f _ hgood ⟨?_, hst.chain, hst.nodup⟩
        exact hroot _ node hst.walk he
      · rw [if_neg he]
        exact hgood
    have hwf1 := wellFormed_set_none b x y hwf
    have habs1 : ∀ p ∈ w.getPath, (b.set_cell x y none).get_cell p.1 p.2 = none := by
      intro p hp
      rcases hst.absent p hp with rfl | hnone
      · simp
      · by_cases hpe : p.1 = x ∧ p.2 = y
        · obtain ⟨h1, h2⟩ := hpe
          rw [← h1, ← h2]
          simp
        · rw [Board.get_set_of_ne b x y p.1 p.2 none hpe]
          exact hnone
    have hdirs : ∀ dirs, (∀ d ∈ dirs, d ∈ directions) → ∀ b' (f' : WordList) r',
        wellFormed b' → (∀ p ∈ w.getPath, b'.get_cell p.1 p.2 = none) →
        goodEntries ws f' → dfsDirs (dfs fuel) dirs b' x y w node f' = some r' →
        goodEntries ws r'.2.2 := by
      intro dirs
      induction dirs with
      | nil =>
        intro _ b' f' r' _ _ hg h'
        simp only [dfsDirs, Option.some.injEq] at h'
        subst h'
        exact hg
      | cons d rest ihd =>
        intro hdmem b' f' r' hwf' habs' hg h'
        obtain ⟨dx, dy⟩ := d
        have hdmem' : ∀ d ∈ rest, d ∈ directions :=
          fun d hd => hdmem d (List.mem_cons_of_mem _ hd)
        simp only [dfsDirs] at h'
        by_cases hgd : 0 ≤ x + dx ∧ x + dx < (b'.ROWS : Int) ∧ 0 ≤ y + dy ∧
            y + dy < (b'.COLS : Int)
        · rw [if_pos hgd] at h'
          cases hcn : b'.get_cell (x + dx) (y + dy) with
          | none =>
            rw [hcn] at h'
            exact ihd hdmem' b' f' r' hwf' habs' hg h'
          | some next_cell =>
            rw [hcn] at h'
            dsimp only at h'
            cases hl : childLookup node.children next_cell.value with
            | none =>
              rw [hl] at h'
              exact ihd hdmem' b' f' r' hwf' habs' hg h'
            | some child =>
              rw [hl] at h'
              dsimp only at h'
              obtain ⟨hx0, hxC, hy0, hyR, hcx, hcy⟩ := hwf' (x + dx) (y + dy) next_cell hcn
              have hnotmem : ((x + dx, y + dy) : Int × Int) ∉ w.getPath := by
                intro hmem
                have habs2 := habs' _ hmem
                simp only at habs2
                rw [habs2] at hcn
                exact absurd hcn (by simp)
              have hstate' : WalkState root b' (x + dx) (y + dy) (w.add next_cell) child := by
                refine ⟨?_, ?_, ?_, ?_, ?_⟩
                · rw [Word.getPath_add, List.getLast?_concat, hcx, hcy]
                · rw [Word.values_add, walkTrie_concat, hst.walk]
                  exact hl
                · rw [Word.getPath_add]
                  refine List.chain'_append.mpr ⟨hst.chain, List.chain'_singleton _, ?_⟩
                  intro p hp q hq
                  rw [hst.last_path, Option.mem_def, Option.some.injEq] at hp
                  simp only [List.head?_cons, Option.mem_def, Option.some.injEq] at hq
                  subst hp
                  subst hq
                  show ((next_cell.x - x, next_cell.y - y) : Int × Int) ∈ directions
                  rw [hcx, hcy]
                  have hpair : ((x + dx - x, y + dy - y) : Int × Int) = (dx, dy) := by
                    congr 1 <;> ring
                  rw [hpair]
                  exact hdmem (dx, dy) (List.mem_cons_self _ _)
                · rw [Word.getPath_add]
                  refine List.Nodup.append hst.nodup (List.nodup_singleton _) ?_
                  intro p hp hq
                  rw [List.mem_singleton.mp hq, hcx, hcy] at hp
                  exact hnotmem hp
                · rw [Word.getPath_add]
                  intro p hp
                  rcases List.mem_append.mp hp with hp | hp
                  · exact Or.inr (habs' p hp)
                  · rw [List.mem_singleton.mp hp, hcx, hcy]
                    exact Or.inl rfl
              cases hr : dfs fuel b' (x + dx) (y + dy) (w.add next_cell) (some child) f' with
              | none =>
                rw [hr] at h'
                exact absurd h' (by simp)
              | some r2 =>
                obtain ⟨b2, w2, f2⟩ := r2
                rw [hr] at h'
                have h'' : dfsDirs (dfs fuel) rest b2 x y w2.pop node f2 = some r' := h'
                obtain ⟨hb2, hw2⟩ := dfs_restore fuel b' (x + dx) (y + dy)
                  (w.add next_cell) (some child) f' (b2, w2, f2) hr
                simp only at hb2 hw2
                have hg2 : goodEntries ws f2 := by
                  have := ih b' (x + dx) (y + dy) (w.add next_cell) child f' (b2, w2, f2)
                    hwf' hstate' hg hr
                  simpa using this
                rw [hw2, Word.pop_add, hb2] at h''
                exact ihd hdmem' b' f2 r' hwf' habs' hg2 h''
        · rw [if_neg hgd] at h'
          exact ihd hdmem' b' f' r' hwf' habs' hg h'
    cases hres : dfsDirs (dfs fuel) directions (b.set_cell x y none) x y w node
        (if node.is_end_of_word = true then f.addFound (w.render, w.getPath) else f) with
    | none =>
      rw [hres] at h
      exact absurd h (by simp)
    | some r2 =>
      obtain ⟨b2, w2, f2⟩ := r2
      rw [hres] at h
      have h2 : some (b2.set_cell x y (b.get_cell x y), w2, f2) = some r := h
      have hg2 := hdirs directions (fun d hd => hd) (b.set_cell x y none) _ (b2, w2, f2)
        hwf1 habs1 hgood1 hres
      simp only [Option.some.injEq] at h2
      subst h2
      simpa using hg2

theorem findLoop_good (root : TrieNode) (ws : List String)
    (hroot : ∀ s n, walkTrie root s = some n → n.is_end_of_word = true →
      String.mk s ∈ ws) :
    ∀ coords b (f : WordList) r, wellFormed b → goodEntries ws f →
      findLoop root coords b f = some r → goodEntries ws r.2 := by
  intro coords
  induction coords with
  | nil =>
    intro b f r _ hg h
    simp only [findLoop, Option.some.injEq] at h
    subst h
    exact hg
  | cons p rest ih =>
    intro b f r hwf hg h
    obtain ⟨x, y⟩ := p
    simp only [findLoop] at h
    cases hcell : b.get_cell x y with
    | none =>
      rw [hcell] at h
      exact absurd h (by simp)
    | some cell =>
      rw [hcell] at h
      dsimp only at h
      obtain ⟨_, _, _, _, hcx, hcy⟩ := hwf x y cell hcell
      cases hn : childLookup root.children cell.value with
      | none =>
        rw [hn, dfs_node_none] at h
        dsimp only at h
        exact ih b f r hwf hg h
      | some child =>
        rw [hn] at h
        have hstate : WalkState root b x y (Word.init cell) child := by
          refine ⟨?_, ?_, ?_, ?_, ?_⟩
          · show ([(cell.x, cell.y)] : List (Int × Int)).getLast? = some (x, y)
            rw [hcx, hcy]
            rfl
          · show walkTrie root [cell.value] = some child
            rw [walkTrie_singleton]
            exact hn
          · exact List.chain'_singleton _
          · exact List.nodup_singleton _
          · intro p hp
            have : p = (cell.x, cell.y) := List.mem_singleton.mp hp
            rw [this, hcx, hcy]
            exact Or.inl rfl
        cases hr : dfs (b.ROWS * b.COLS) b x y (Word.init cell) (some child) f with
        | none =>
          rw [hr] at h
          exact absurd h (by simp)
        | some r2 =>
          obtain ⟨b2, w2, f2⟩ := r2
          rw [hr] at h
          have h' : findLoop root rest b2 f2 = some r := h
          obtain ⟨hb2, _⟩ := dfs_restore _ _ _ _ _ _ _ _ hr
          simp only at hb2
          rw [hb2] at h'
          have hg2 : goodEntries ws f2 := by
            have := dfs_good root ws hroot (b.ROWS * b.COLS) b x y (Word.init cell) child f
              (b2, w2, f2) hwf hstate hg hr
            simpa using this
          exact ih b f2 r hwf hg2 h'

/-- C1: every (word, path) pair emitted into the result set by
`find_all_words` has a rendered word string that is a member of the loaded
dictionary, and a coordinate path that is a connected walk in which each
consecutive pair of coordinates differs by one of the 8 neighbor offsets and
no coordinate occurs twice. -/
theorem C1_found_words_valid (ws : List String) (b : Board) (hwf : wellFormed b)
    (r : Board × WordList) (h : find_all_words (buildTrie ws) b = some r) :
    ∀ e ∈ r.2.entries, e.1 ∈ ws ∧ List.Chain' adjacentStep e.2 ∧ e.2.Nodup := by
  have hroot : ∀ s n, walkTrie (buildTrie ws) s = some n → n.is_end_of_word = true →
      String.mk s ∈ ws := by
    intro s n hwalk hend
    have hE : trieEnd (ws.foldl (fun t w => insertWord t w.toList) ⟨[], false⟩) s :=
      ⟨n, hwalk, hend⟩
    rcases (trieEnd_foldl ws ⟨[], false⟩ s).mp hE with ⟨w', hw', he⟩ | hend'
    · have hmk : String.mk w'.toList = w' := rfl
      rw [← he, hmk]
      exact hw'
    · exact absurd hend' (not_trieEnd_empty s)
  exact findLoop_good (buildTrie ws) ws hroot (boardCoords b) b ⟨[]⟩ r hwf
    (fun e he => absurd he (List.not_mem_nil e)) h

theorem C1_found_words_valid_witness :
    String.mk ['a'] ∈ ["a"] ∧
      List.Chain' adjacentStep [(((0 : Int), (0 : Int)))] ∧
      ([(((0 : Int), (0 : Int)))] : List (Int × Int)).Nodup :=
  C1_found_words_valid ["a"] gridA gridA_wellFormed
    (gridA', ⟨[(String.mk ['a'], [(0, 0)])]⟩) rfl
    (String.mk ['a'], [(0, 0)]) (by decide)

/-! ## Ghost-instrumented DFS recording recursion targets

`dfsC`/`dfsDirsC` are `_dfs` with one ghost output added: the list of
neighbor coordinates actually recursed into, each with the cell that was read
there.  The main outputs are proved identical to `dfs`; the recorded calls
witness which neighbors the guard admitted. -/

/-- The direction loop of `_dfs`, additionally returning every
`(neighbor coordinate, neighbor cell)` that a recursive call was made on
anywhere in the explored subtree. -/
def dfsDirsC (rec : Board → Int → Int → Word → Option TrieNode → WordList →
    Option (Board × Word × WordList × List ((Int × Int) × Cell))) :
    List (Int × Int) → Board → Int → Int → Word → TrieNode → WordList →
    Option (Board × Word × WordList × List ((Int × Int) × Cell))
  | [], b, _, _, w, _, f => some (b, w, f, [])
  | (dx, dy) :: rest, b, x, y, w, node, f =>
    let nx := x + dx
    let ny := y + dy
    if 0 ≤ nx ∧ nx < (b.ROWS : Int) ∧ 0 ≤ ny ∧ ny < (b.COLS : Int) then
      match b.get_cell nx ny with
      | some next_cell =>
        match childLookup node.children next_cell.value with
        | some child =>
          match rec b nx ny (w.add next_cell) (some child) f with
          | none => none
          | some (b2, w2, f2, cs) =>
            match dfsDirsC rec rest b2 x y w2.pop node f2 with
            | none => none
            | some (b3, w3, f3, cs') => some (b3, w3, f3, ((nx, ny), next_cell) :: (cs ++ cs'))
        | none => dfsDirsC rec rest b x y w node f
      | none => dfsDirsC rec rest b x y w node f
    else dfsDirsC rec rest b x y w node f

/-- `_dfs` with the ghost recursion-target trace. -/
def dfsC : Nat → Board → Int → Int → Word → Option TrieNode → WordList →
    Option (Board × Word × WordList × List ((Int × Int) × Cell))
  | _, b, _, _, w, none, f => some (b, w, f, [])
  | 0, _, _, _, _, some _, _ => none
  | fuel + 1, b, x, y, w, some node, f =>
    let f1 := if node.is_end_of_word then f.addFound (w.render, w.getPath) else f
    let temp := b.get_cell x y
    let b1 := b.set_cell x y none
    match dfsDirsC (dfsC fuel) directions b1 x y w node f1 with
    | none => none
    | some (b2, w2, f2, cs) => some (b2.set_cell x y temp, w2, f2, cs)

/-- Forgetting the ghost trace. -/
def eraseCalls (r : Option (Board × Word × WordList × List ((Int × Int) × Cell))) :
    Option (Board × Word × WordList) :=
  r.map (fun r => (r.1, r.2.1, r.2.2.1))

theorem dfsDirsC_proj
    (recC : Board → Int → Int → Word → Option TrieNode → WordList →
      Option (Board × Word × WordList × List ((Int × Int) × Cell)))
    (rec : Board → Int → Int → Word → Option TrieNode → WordList →
      Option (Board × Word × WordList))
    (hrec : ∀ b x y w n f, eraseCalls (recC b x y w n f) = rec b x y w n f) :
    ∀ dirs b x y w node f,
      eraseCalls (dfsDirsC recC dirs b x y w node f) = dfsDirs rec dirs b x y w node f := by
  intro dirs
  induction dirs with
  | nil =>
    intro b x y w node f
    rfl
  | cons d rest ih =>
    intro b x y w node f
    obtain ⟨dx, dy⟩ := d
    simp only [dfsDirsC, dfsDirs]
    by_cases hgd : 0 ≤ x + dx ∧ x + dx < (b.ROWS : Int) ∧ 0 ≤ y + dy ∧
        y + dy < (b.COLS : Int)
    · rw [if_pos hgd, if_pos hgd]
      cases hcn : b.get_cell (x + dx) (y + dy) with
      | none => exact ih b x y w node f
      | some next_cell =>
        dsimp only
        cases hl : childLookup node.children next_cell.value with
        | none => exact ih b x y w node f
        | some child =>
          dsimp only
          have hr := hrec b (x + dx) (y + dy) (w.add next_cell) (some child) f
          cases hrc : recC b (x + dx) (y + dy) (w.add next_cell) (some child) f with
          | none =>
            rw [hrc] at hr
            have hr' : (none : Option (Board × Word × WordList)) =
                rec b (x + dx) (y + dy) (w.add next_cell) (some child) f := hr
            rw [← hr']
            rfl
          | some r2 =>
            obtain ⟨b2, w2, f2, cs⟩ := r2
            rw [hrc] at hr
            have hr' : some (b2, w2, f2) =
                rec b (x + dx) (y + dy) (w.add next_cell) (some child) f := hr
            rw [← hr']
            dsimp only
            rw [← ih b2 x y w2.pop node f2]
            cases hrest : dfsDirsC recC rest b2 x y w2.pop node f2 with
            | none => rfl
            | some r3 =>
              obtain ⟨b3, w3, f3, cs'⟩ := r3
              rfl
    · rw [if_neg hgd, if_neg hgd]
      exact ih b x y w node f

theorem dfsC_proj :
    ∀ fuel b x y w n f, eraseCalls (dfsC fuel b x y w n f) = dfs fuel b x y w n f := by
  intro fuel
  induction fuel with
  | zero =>
    intro b x y w n f
    cases n <;> rfl
  | succ fuel ih =>
    intro b x y w n f
    cases n with
    | none => rfl
    | some node =>
      simp only [dfsC, dfs]
      have hdirs := dfsDirsC_proj (dfsC fuel) (dfs fuel) ih directions
        (b.set_cell x y none) x y w node
        (if node.is_end_of_word = true then f.addFound (w.render, w.getPath) else f)
      cases hres : dfsDirsC (dfsC fuel) directions (b.set_cell x y none) x y w node
          (if node.is_end_of_word = true then f.addFound (w.render, w.getPath) else f) with
      | none =>
        rw [hres] at hdirs
        rw [← hdirs]
        rfl
      | some r2 =>
        obtain ⟨b2, w2, f2, cs⟩ := r2
        rw [hres] at hdirs
        rw [← hdirs]
        rfl

theorem dfsC_restore (fuel : Nat) (b : Board) (x y : Int) (w : Word)
    (n : Option TrieNode) (f : WordList)
    (r : Board × Word × WordList × List ((Int × Int) × Cell))
    (h : dfsC fuel b x y w n f = some r) : r.1 = b ∧ r.2.1 = w := by
  have hp := dfsC_proj fuel b x y w n f
  rw [h] at hp
  have hd : dfs fuel b x y w n f = some (r.1, r.2.1, r.2.2.1) := hp.symm
  exact dfs_restore fuel b x y w n f _ hd

/-- `b'` is the board `b0` with some cells temporarily removed: every present
cell of `b'` is present, unchanged, in `b0`. -/
def SubBoard (b' b : Board) : Prop :=
  ∀ x y c, b'.get_cell x y = some c → b.get_cell x y = some c

theorem subBoard_refl (b : Board) : SubBoard b b :=
  fun _ _ _ h => h

theorem subBoard_set_none (b' b0 : Board) (x y : Int) (h : SubBoard b' b0) :
    SubBoard (b'.set_cell x y none) b0 := by
  intro x' y' c hc
  simp only [Board.get_cell, Board.set_cell] at hc
  by_cases he : x' = x ∧ y' = y
  · rw [if_pos he] at hc
    exact absurd hc (by simp)
  · rw [if_neg he] at hc
    exact h x' y' c hc

/-- Every recursion target recorded during the DFS of a board whose present
cells all come from the well-formed board `b0` lies inside `b0`'s
`find_all_words` bounds and was present in `b0`. -/
theorem dfsC_calls_good (b0 : Board) (hwf : wellFormed b0) :
    ∀ fuel b x y (w : Word) (n : Option TrieNode) (f : WordList) r, SubBoard b b0 →
      dfsC fuel b x y w n f = some r →
      ∀ pc ∈ r.2.2.2,
        (0 ≤ pc.1.1 ∧ pc.1.1 < (b0.COLS : Int) ∧ 0 ≤ pc.1.2 ∧ pc.1.2 < (b0.ROWS : Int)) ∧
        b0.get_cell pc.1.1 pc.1.2 = some pc.2 := by
  intro fuel
  induction fuel with
  | zero =>
    intro b x y w n f r hsub h pc hpc
    cases n with
    | none =>
      simp only [dfsC, Option.some.injEq] at h
      subst h
      exact absurd hpc (List.not_mem_nil _)
    | some node => exact absurd h (by simp [dfsC])
  | succ fuel ih =>
    intro b x y w n f r hsub h pc hpc
    cases n with
    | none =>
      simp only [dfsC, Option.some.injEq] at h
      subst h
      exact absurd hpc (List.not_mem_nil _)
    | some node =>
      simp only [dfsC] at h
      have hsub1 : SubBoard (b.set_cell x y none) b0 := subBoard_set_none b b0 x y hsub
      have hdirs : ∀ dirs b' (w' : Word) (f' : WordList) r', SubBoard b' b0 →
          dfsDirsC (dfsC fuel) dirs b' x y w' node f' = some r' →
          ∀ pc ∈ r'.2.2.2,
            (0 ≤ pc.1.1 ∧ pc.1.1 < (b0.COLS : Int) ∧ 0 ≤ pc.1.2 ∧
              pc.1.2 < (b0.ROWS : Int)) ∧
            b0.get_cell pc.1.1 pc.1.2 = some pc.2 := by
        intro dirs
        induction dirs with
        | nil =>
          intro b' w' f' r' _ h' pc hpc
          simp only [dfsDirsC, Option.some.injEq] at h'
          subst h'
          exact absurd hpc (List.not_mem_nil _)
        | cons d rest ihd =>
          intro b' w' f' r' hsub' h' pc hpc
          obtain ⟨dx, dy⟩ := d
          simp only [dfsDirsC] at h'
          by_cases hgd : 0 ≤ x + dx ∧ x + dx < (b'.ROWS : Int) ∧ 0 ≤ y + dy ∧
              y + dy < (b'.COLS : Int)
          · rw [if_pos hgd] at h'
            cases hcn : b'.get_cell (x + dx) (y + dy) with
            | none =>
              rw [hcn] at h'
              exact ihd b' w' f' r' hsub' h' pc hpc
            | some next_cell =>
              rw [hcn] at h'
              dsimp only at h'
              cases hl : childLookup node.children next_cell.value with
              | none =>
                rw [hl] at h'
                exact ihd b' w' f' r' hsub' h' pc hpc
              | some child =>
                rw [hl] at h'
                dsimp only at h'
                cases hrc : dfsC fuel b' (x + dx) (y + dy) (w'.add next_cell)
                    (some child) f' with
                | none =>
                  rw [hrc] at h'
                  exact absurd h' (by simp)
                | some r2 =>
                  obtain ⟨b2, w2, f2, cs⟩ := r2
                  rw [hrc] at h'
                  dsimp only at h'
                  obtain ⟨hb2, _⟩ := dfsC_restore fuel b' (x + dx) (y + dy)
                    (w'.add next_cell) (some child) f' (b2, w2, f2, cs) hrc
                  simp only at hb2
                  cases hrest : dfsDirsC (dfsC fuel) rest b2 x y w2.pop node f2 with
                  | none =>
                    rw [hrest] at h'
                    exact absurd h' (by simp)
                  | some r3 =>
                    obtain ⟨b3, w3, f3, cs'⟩ := r3
                    rw [hrest] at h'
                    have h'' : some (b3, w3, f3,
                        ((x + dx, y + dy), next_cell) :: (cs ++ cs')) = some r' := h'
                    simp only [Option.some.injEq] at h''
                    subst h''
                    rcases List.mem_cons.mp hpc with rfl | hmem
                    · have hb0 : b0.get_cell (x + dx) (y + dy) = some next_cell :=
                        hsub' _ _ _ hcn
                      obtain ⟨h1, h2, h3, h4, _, _⟩ := hwf (x + dx) (y + dy) next_cell hb0
                      exact ⟨⟨h1, h2, h3, h4⟩, hb0⟩
                    · rcases List.mem_append.mp hmem with hmem | hmem
                      · exact ih b' (x + dx) (y + dy) (w'.add next_cell) (some child) f'
                          (b2, w2, f2, cs) hsub' hrc pc hmem
                      · rw [hb2] at hrest
                        exact ihd b' w2.pop f2 (b3, w3, f3, cs') hsub' hrest pc hmem
          · rw [if_neg hgd] at h'
            exact ihd b' w' f' r' hsub' h' pc hpc
      cases hres : dfsDirsC (dfsC fuel) directions (b.set_cell x y none) x y w node
          (if node.is_end_of_word = true then f.addFound (w.render, w.getPath) else f) with
      | none =>
        rw [hres] at h
        exact absurd h (by simp)
      | some r2 =>
        obtain ⟨b2, w2, f2, cs⟩ := r2
        rw [hres] at h
        have h2 : some (b2.set_cell x y (b.get_cell x y), w2, f2, cs) = some r := h
        simp only [Option.some.injEq] at h2
        subst h2
        exact hdirs directions (b.set_cell x y none) w
          (if node.is_end_of_word = true then f.addFound (w.render, w.getPath) else f)
          (b2, w2, f2, cs) hsub1 hres pc hpc

/-- C3: during the DFS of `_dfs`, a neighbor coordinate (nx, ny) = (x+dx,
y+dy) is recursed into only when it is in bounds of the ROWS×COLS board in
the axis convention of `find_all_words` (0 ≤ nx < COLS and 0 ≤ ny < ROWS) and
the cell at that coordinate is present; every out-of-bounds or absent
neighbor is skipped.  The trace-instrumented `dfsC` projects onto `_dfs` and
records exactly the recursion targets, each of which is proved in-bounds and
present (on the board as at the start of the call). -/
theorem C3_neighbor_guard (b : Board) (hwf : wellFormed b) (fuel : Nat) (x y : Int)
    (w : Word) (node : TrieNode) (f : WordList)
    (r : Board × Word × WordList × List ((Int × Int) × Cell))
    (h : dfsC fuel b x y w (some node) f = some r) :
    dfs fuel b x y w (some node) f = some (r.1, r.2.1, r.2.2.1) ∧
    ∀ pc ∈ r.2.2.2,
      (0 ≤ pc.1.1 ∧ pc.1.1 < (b.COLS : Int) ∧ 0 ≤ pc.1.2 ∧ pc.1.2 < (b.ROWS : Int)) ∧
      b.get_cell pc.1.1 pc.1.2 = some pc.2 := by
  constructor
  · have hp := dfsC_proj fuel b x y w (some node) f
    rw [h] at hp
    exact hp.symm
  · exact dfsC_calls_good b hwf fuel b x y w (some node) f r (subBoard_refl b) h

/-- A concrete 2×2 board: rows "ab" / "cd". -/
def gridAB : Board :=
  ⟨2, 2, fun x y =>
    if x = 0 ∧ y = 0 then some ⟨0, 0, 'a'⟩
    else if x = 1 ∧ y = 0 then some ⟨1, 0, 'b'⟩
    else if x = 0 ∧ y = 1 then some ⟨0, 1, 'c'⟩
    else if x = 1 ∧ y = 1 then some ⟨1, 1, 'd'⟩
    else none⟩

theorem gridAB_wellFormed : wellFormed gridAB := by
  intro x y c h
  simp only [gridAB] at h
  split_ifs at h with h1 h2 h3 h4
  · obtain ⟨rfl, rfl⟩ := h1
    rw [Option.some.injEq] at h
    subst h
    exact ⟨by decide, by decide, by decide, by decide, rfl, rfl⟩
  · obtain ⟨rfl, rfl⟩ := h2
    rw [Option.some.injEq] at h
    subst h
    exact ⟨by decide, by decide, by decide, by decide, rfl, rfl⟩
  · obtain ⟨rfl, rfl⟩ := h3
    rw [Option.some.injEq] at h
    subst h
    exact ⟨by decide, by decide, by decide, by decide, rfl, rfl⟩
  · obtain ⟨rfl, rfl⟩ := h4
    rw [Option.some.injEq] at h
    subst h
    exact ⟨by decide, by decide, by decide, by decide, rfl, rfl⟩

theorem C3_neighbor_guard_witness :
    ((0 : Int) ≤ 1 ∧ (1 : Int) < (gridAB.COLS : Int) ∧ (0 : Int) ≤ 0 ∧
      (0 : Int) < (gridAB.ROWS : Int)) ∧
    gridAB.get_cell 1 0 = some ⟨1, 0, 'b'⟩ :=
  (C3_neighbor_guard gridAB gridAB_wellFormed 4 0 0 (Word.init ⟨0, 0, 'a'⟩)
    ⟨[('b', ⟨[], true⟩)], false⟩ ⟨[]⟩
    ((((gridAB.set_cell 0 0 none).set_cell 1 0 none).set_cell 1 0
        (some ⟨1, 0, 'b'⟩)).set_cell 0 0 (some ⟨0, 0, 'a'⟩),
      Word.init ⟨0, 0, 'a'⟩,
      ⟨[(String.mk ['a', 'b'], [(0, 0), (1, 0)])]⟩,
      [(((1 : Int), (0 : Int)), ⟨1, 0, 'b'⟩)]) rfl).2
    (((1 : Int), (0 : Int)), ⟨1, 0, 'b'⟩) (by decide)

end SpellCast
